import Mathlib

/-!
Verification of the candidate-list join engine of the gunrock subgraph-matching
core, shallowly embedded from `src/gunrock/util/join.cuh` and
`src/gunrock/app/sm/sm_problem.cuh`.  Device arrays are modelled as total
functions `Nat → Nat`; the grid-stride kernels are embedded sequentially
(a single worker scanning the index domain in ascending order), which is the
claims' stated execution model.
-/

namespace Gunrock

/-- Length of query edge `i`'s candidate segment, read off the offset table
`pos` exactly as the Join kernel does: segment 0 has length `pos[0]`, segment
`i+1` has length `pos[i+1] - pos[i]`. -/
def segLen (pos : Nat → Nat) : Nat → Nat
  | 0 => pos 0
  | i + 1 => pos (i + 1) - pos i

/-- Product of the segment lengths of query edges `a, a+1, ..., a+n-1`. -/
def prodFrom (pos : Nat → Nat) (a : Nat) : Nat → Nat
  | 0 => 1
  | n + 1 => segLen pos a * prodFrom pos (a + 1) n

/-- The combination-space size computed at the top of the Join kernel:
`size = pos[0]; for(i = 0; i < edges_query-1; i++) size *= pos[i+1]-pos[i];`. -/
def joinSize (pos : Nat → Nat) (q : Nat) : Nat :=
  (List.range (q - 1)).foldl (fun s i => s * (pos (i + 1) - pos i)) (pos 0)

/-- Mixed-radix digits extracted by the Join decode loop: for query edge
`iter` from `q-1` down to `1` the digit is `id % (pos[iter]-pos[iter-1])`
with `id` then divided by that length; the digit for query edge 0 is the
final quotient (the code takes no modulo there).  The list is indexed by
query edge, so the digit for edge `q-1` sits last. -/
def decodeDigits (pos : Nat → Nat) : Nat → Nat → List Nat
  | 0, _ => []
  | 1, x => [x]
  | q + 2, x =>
      decodeDigits pos (q + 1) (x / segLen pos (q + 1)) ++ [x % segLen pos (q + 1)]

/-- Mixed-radix re-encoding: multiply the digits back out by the segment
lengths (`encode ds = (...(d0 * len1 + d1) * len2 + d2 ...)`). -/
def encodeDigits (pos : Nat → Nat) : Nat → List Nat → Nat
  | 0, _ => 0
  | 1, ds => ds.headD 0
  | q + 2, ds =>
      encodeDigits pos (q + 1) ds.dropLast * segLen pos (q + 1) + ds.getLastD 0

/-- Candidate-array slots chosen by the Join decode loop: for query edge
`iter ≥ 1` the slot is `pos[iter-1] + id % (pos[iter]-pos[iter-1])`, for
query edge 0 it is the final quotient `id`. -/
def decodeSlots (pos : Nat → Nat) : Nat → Nat → List Nat
  | 0, _ => []
  | 1, x => [x]
  | q + 2, x =>
      decodeSlots pos (q + 1) (x / segLen pos (q + 1))
        ++ [pos q + x % segLen pos (q + 1)]

/-- The tuple of candidate data-edge ids for tuple index `x`: the decoded
slots looked up through the cleaned candidate array `edges`
(`edge_id[iter] = edges[...]`). -/
def decodeTuple (pos edges : Nat → Nat) (q x : Nat) : List Nat :=
  (decodeSlots pos q x).map edges

/-- The source-endpoint rule of the Join kernel for earlier data edge `a`
and newly placed data edge `b`, with orientation code `c`:
`c` odd demands `froms[a] == froms[b]`, `c` even nonzero demands
`tos[a] == froms[b]`, `c == 0` demands `froms[b]` differ from both
endpoints of `a`. -/
def srcCheck (froms tos : Nat → Nat) (c a b : Nat) : Bool :=
  if c ≠ 0 then
    (if c % 2 = 1 then froms a == froms b else tos a == froms b)
  else (froms b != froms a) && (froms b != tos a)

/-- The destination-endpoint rule of the Join kernel, with orientation code
`d`: `d` odd demands `froms[a] == tos[b]`, `d` even nonzero demands
`tos[a] == tos[b]`, `d == 0` demands `tos[b]` differ from both endpoints
of `a`. -/
def dstCheck (froms tos : Nat → Nat) (d a b : Nat) : Bool :=
  if d ≠ 0 then
    (if d % 2 = 1 then froms a == tos b else tos a == tos b)
  else (tos b != froms a) && (tos b != tos a)

/-- One inner-loop iteration of the Join validation: reject when the two
data-edge ids coincide, then apply the source rule with code
`intersect[k*2]` and the destination rule with code `intersect[k*2+1]`,
where `k = offset + edge` indexes the rule-table entry for the pair. -/
def pairCheck (froms tos intersect : Nat → Nat) (k a b : Nat) : Bool :=
  (a != b) && srcCheck froms tos (intersect (k * 2)) a b
           && dstCheck froms tos (intersect (k * 2 + 1)) a b

/-- The full validation nest of the Join kernel: for `iter` in
`[0, edges_query-1)` and `edge` in `[0, iter]`, check the pair
(`edge`, `iter+1`) with rule-table offset `iter*(iter+1)/2`.  `List.all`
short-circuits exactly as the `break` statements do. -/
def joinValid (froms tos intersect : Nat → Nat) (q : Nat) (t : List Nat) : Bool :=
  (List.range (q - 1)).all fun iter =>
    (List.range (iter + 1)).all fun edge =>
      pairCheck froms tos intersect (iter * (iter + 1) / 2 + edge)
        (t.getD edge 0) (t.getD (iter + 1) 0)

/-- Whether tuple index `x` is accepted by the Join kernel. -/
def joinAccepts (pos edges froms tos intersect : Nat → Nat) (q x : Nat) : Bool :=
  joinValid froms tos intersect q (decodeTuple pos edges q x)

/-- The output loop of an accepted tuple:
`for(iter = 0; iter < edges_query; iter++) output[counts[0]*edges_query+iter] = edge_id[iter];`. -/
def joinEmit (out : Nat → Nat) (q count : Nat) (t : List Nat) : Nat → Nat :=
  (List.range q).foldl (fun o iter => Function.update o (count * q + iter) (t.getD iter 0)) out

/-- One iteration of the Join grid-stride loop for tuple index `x`,
acting on the state (match counter, output buffer): decode, validate, and
on success write the tuple at the slot derived from the current counter and
increment the counter. -/
def joinStep (pos edges froms tos intersect : Nat → Nat) (q : Nat)
    (st : Nat × (Nat → Nat)) (x : Nat) : Nat × (Nat → Nat) :=
  let t := decodeTuple pos edges q x
  if joinValid froms tos intersect q t then
    (st.1 + 1, joinEmit st.2 q st.1 t)
  else st

/-- Sequential run of the Join kernel over the whole combination space,
starting from a zeroed match counter and output buffer `out0`. -/
def joinRun (pos edges froms tos intersect : Nat → Nat) (q : Nat)
    (out0 : Nat → Nat) : Nat × (Nat → Nat) :=
  (List.range (joinSize pos q)).foldl (joinStep pos edges froms tos intersect q) (0, out0)

theorem prodFrom_succ_right (pos : Nat → Nat) (n : Nat) :
    ∀ a, prodFrom pos a (n + 1) = prodFrom pos a n * segLen pos (a + n) := by
  induction n with
  | zero => intro a; simp [prodFrom]
  | succ n ih =>
    intro a
    have h1 : a + 1 + n = a + (n + 1) := by omega
    calc prodFrom pos a (n + 2)
        = segLen pos a * prodFrom pos (a + 1) (n + 1) := rfl
      _ = segLen pos a * (prodFrom pos (a + 1) n * segLen pos (a + 1 + n)) := by
            rw [ih]
      _ = segLen pos a * prodFrom pos (a + 1) n * segLen pos (a + (n + 1)) := by
            rw [h1, Nat.mul_assoc]
      _ = prodFrom pos a (n + 1) * segLen pos (a + (n + 1)) := rfl

theorem joinSize_eq_prodFrom (pos : Nat → Nat) (q : Nat) (hq : 1 ≤ q) :
    joinSize pos q = prodFrom pos 0 q := by
  obtain ⟨n, rfl⟩ : ∃ n, q = n + 1 := ⟨q - 1, by omega⟩
  have key : ∀ m s, (List.range m).foldl (fun s i => s * (pos (i + 1) - pos i)) s
      = s * prodFrom pos 1 m := by
    intro m
    induction m with
    | zero => intro s; simp [prodFrom]
    | succ m ih =>
      intro s
      rw [List.range_succ, List.foldl_append, ih, prodFrom_succ_right]
      have h1 : 1 + m = m + 1 := by omega
      rw [h1]
      simp [List.foldl, segLen, Nat.mul_assoc]
  show (List.range (n + 1 - 1)).foldl _ (pos 0) = _
  rw [Nat.add_sub_cancel, key, prodFrom]
  rfl

theorem decodeDigits_length (pos : Nat → Nat) : ∀ q x, (decodeDigits pos q x).length = q := by
  intro q
  induction q with
  | zero => intro x; rfl
  | succ q ih =>
    intro x
    cases q with
    | zero => rfl
    | succ k =>
      show (decodeDigits pos (k + 1) _ ++ [_]).length = k + 2
      simp [List.length_append, ih]

theorem mixedRadix_encode_decode (pos : Nat → Nat) :
    ∀ q, (∀ i, i < q → 0 < segLen pos i) →
      ∀ x, x < prodFrom pos 0 q → encodeDigits pos q (decodeDigits pos q x) = x := by
  intro q
  induction q with
  | zero =>
    intro _ x hx
    simp only [prodFrom, Nat.lt_one_iff] at hx
    simp [decodeDigits, encodeDigits, hx]
  | succ q ih =>
    intro hpos x hx
    cases q with
    | zero => rfl
    | succ k =>
      have hL : 0 < segLen pos (k + 1) := hpos (k + 1) (by omega)
      have hx' : x / segLen pos (k + 1) < prodFrom pos 0 (k + 1) := by
        rw [prodFrom_succ_right, Nat.zero_add] at hx
        exact (Nat.div_lt_iff_lt_mul hL).2 hx
      have ihx := ih (fun i hi => hpos i (by omega)) (x / segLen pos (k + 1)) hx'
      show encodeDigits pos (k + 2)
          (decodeDigits pos (k + 1) (x / segLen pos (k + 1)) ++ [x % segLen pos (k + 1)]) = x
      rw [encodeDigits, List.dropLast_concat, List.getLastD_concat, ihx,
        Nat.mul_comm, Nat.div_add_mod]

theorem mixedRadix_decode_injective (pos : Nat → Nat) (q : Nat)
    (hpos : ∀ i, i < q → 0 < segLen pos i) (x y : Nat)
    (hx : x < prodFrom pos 0 q) (hy : y < prodFrom pos 0 q)
    (h : decodeDigits pos q x = decodeDigits pos q y) : x = y := by
  have hx1 := mixedRadix_encode_decode pos q hpos x hx
  have hy1 := mixedRadix_encode_decode pos q hpos y hy
  rw [← hx1, ← hy1, h]

/-- C2: for a segment offset table with strictly positive segment lengths and
any tuple index `x` below the combination-space size (the product of all
segment lengths, which is exactly what the Join kernel's size computation
yields), the mixed-radix decode of the Join kernel re-encodes to `x` exactly,
and distinct indices decode to distinct digit tuples. -/
theorem join_decode_bijection (pos : Nat → Nat) (q : Nat) (hq : 1 ≤ q)
    (hpos : ∀ i, i < q → 0 < segLen pos i) :
    joinSize pos q = prodFrom pos 0 q ∧
    (∀ x, x < joinSize pos q → encodeDigits pos q (decodeDigits pos q x) = x) ∧
    (∀ x y, x < joinSize pos q → y < joinSize pos q → x ≠ y →
      decodeDigits pos q x ≠ decodeDigits pos q y) := by
  have hsz := joinSize_eq_prodFrom pos q hq
  refine ⟨hsz, ?_, ?_⟩
  · intro x hx
    exact mixedRadix_encode_decode pos q hpos x (hsz ▸ hx)
  · intro x y hx hy hxy hdec
    exact hxy (mixedRadix_decode_injective pos q hpos x y (hsz ▸ hx) (hsz ▸ hy) hdec)

/-- Witness for C2 at the concrete offset table `pos = [2, 5]` (two query
edges with segment lengths 2 and 3). -/
theorem join_decode_bijection_witness :
    (1 ≤ 2 ∧ ∀ i, i < 2 → 0 < segLen (fun j => if j = 0 then 2 else 5) i) ∧
    (joinSize (fun j => if j = 0 then 2 else 5) 2
        = prodFrom (fun j => if j = 0 then 2 else 5) 0 2 ∧
      (∀ x, x < joinSize (fun j => if j = 0 then 2 else 5) 2 →
        encodeDigits (fun j => if j = 0 then 2 else 5) 2
          (decodeDigits (fun j => if j = 0 then 2 else 5) 2 x) = x) ∧
      (∀ x y, x < joinSize (fun j => if j = 0 then 2 else 5) 2 →
        y < joinSize (fun j => if j = 0 then 2 else 5) 2 → x ≠ y →
        decodeDigits (fun j => if j = 0 then 2 else 5) 2 x
          ≠ decodeDigits (fun j => if j = 0 then 2 else 5) 2 y)) :=
  ⟨⟨by decide, by decide⟩,
    join_decode_bijection (fun j => if j = 0 then 2 else 5) 2 (by decide) (by decide)⟩

/-- The adjacency rule for rule-table entry `k`, between the earlier-placed
data edge `a` and the newly placed data edge `b`, stated as the spec words
it: a nonzero orientation code demands the specified literal endpoint
equality (odd: source of `a`; even: destination of `a`; first code against
`b`'s source, second against `b`'s destination), and a code of zero demands
the new edge's relevant endpoint differ from both endpoints of `a`. -/
def adjRuleSat (froms tos intersect : Nat → Nat) (k a b : Nat) : Prop :=
  (if intersect (k * 2) = 0 then froms b ≠ froms a ∧ froms b ≠ tos a
   else if intersect (k * 2) % 2 = 1 then froms a = froms b
   else tos a = froms b) ∧
  (if intersect (k * 2 + 1) = 0 then tos b ≠ froms a ∧ tos b ≠ tos a
   else if intersect (k * 2 + 1) % 2 = 1 then froms a = tos b
   else tos a = tos b)

theorem pairCheck_iff (froms tos intersect : Nat → Nat) (k a b : Nat) :
    pairCheck froms tos intersect k a b = true ↔
      a ≠ b ∧ adjRuleSat froms tos intersect k a b := by
  unfold pairCheck srcCheck dstCheck adjRuleSat
  split_ifs <;>
    simp_all [Bool.and_eq_true, bne_iff_ne, beq_iff_eq, and_assoc]

theorem joinValid_iff (froms tos intersect : Nat → Nat) (q : Nat) (t : List Nat) :
    joinValid froms tos intersect q t = true ↔
      ∀ k, 1 ≤ k → k < q → ∀ j, j < k →
        t.getD j 0 ≠ t.getD k 0 ∧
        adjRuleSat froms tos intersect ((k - 1) * k / 2 + j) (t.getD j 0) (t.getD k 0) := by
  unfold joinValid
  rw [List.all_eq_true]
  constructor
  · intro h k hk1 hkq j hj
    have h2 := h (k - 1) (List.mem_range.2 (by omega))
    rw [List.all_eq_true] at h2
    have h3 := h2 j (List.mem_range.2 (by omega))
    have hk : k - 1 + 1 = k := by omega
    rw [hk] at h3
    exact (pairCheck_iff froms tos intersect ((k - 1) * k / 2 + j) (t.getD j 0)
      (t.getD k 0)).1 h3
  · intro h iter hiter
    rw [List.all_eq_true]
    intro j hj
    rw [List.mem_range] at hiter hj
    have h4 := h (iter + 1) (by omega) (by omega) j (by omega)
    have hsim : iter + 1 - 1 = iter := by omega
    rw [hsim] at h4
    exact (pairCheck_iff froms tos intersect (iter * (iter + 1) / 2 + j) (t.getD j 0)
      (t.getD (iter + 1) 0)).2 h4

theorem joinFold_count (pos edges froms tos intersect : Nat → Nat) (q : Nat) :
    ∀ (l : List Nat) (c0 : Nat) (out : Nat → Nat),
      (l.foldl (joinStep pos edges froms tos intersect q) (c0, out)).1
        = c0 + (l.filter (joinAccepts pos edges froms tos intersect q)).length := by
  intro l
  induction l with
  | nil => intro c0 out; simp
  | cons x xs ih =>
    intro c0 out
    rw [List.foldl_cons, List.filter_cons]
    by_cases hx : joinAccepts pos edges froms tos intersect q x = true
    · have hx' : joinValid froms tos intersect q (decodeTuple pos edges q x) = true := hx
      simp only [joinStep, hx', if_true, hx, ih]
      simp
      omega
    · have hx' : joinValid froms tos intersect q (decodeTuple pos edges q x) = false :=
        Bool.eq_false_iff.2 hx
      simp only [joinStep, hx', Bool.false_eq_true, if_false, hx, ih]

/-- C1: under the sequential embedding of the Join kernel, a tuple index is
accepted (its tuple is written at the slot derived from the current counter
and the counter incremented) exactly when, for every later-placed query edge
`k` and every earlier-placed query edge `j`, the two chosen data-edge ids
differ and the adjacency rule table entry for the pair is satisfied; the
final counter value equals the number of accepted tuple indices. -/
theorem join_acceptance (pos edges froms tos intersect : Nat → Nat)
    (q : Nat) (out0 : Nat → Nat) :
    (joinRun pos edges froms tos intersect q out0).1
        = ((List.range (joinSize pos q)).filter
            (joinAccepts pos edges froms tos intersect q)).length ∧
    (∀ x, joinAccepts pos edges froms tos intersect q x = true ↔
      ∀ k, 1 ≤ k → k < q → ∀ j, j < k →
        (decodeTuple pos edges q x).getD j 0 ≠ (decodeTuple pos edges q x).getD k 0 ∧
        adjRuleSat froms tos intersect ((k - 1) * k / 2 + j)
          ((decodeTuple pos edges q x).getD j 0) ((decodeTuple pos edges q x).getD k 0)) ∧
    (∀ (st : Nat × (Nat → Nat)) (x : Nat),
      (joinAccepts pos edges froms tos intersect q x = true →
        joinStep pos edges froms tos intersect q st x
          = (st.1 + 1, joinEmit st.2 q st.1 (decodeTuple pos edges q x))) ∧
      (joinAccepts pos edges froms tos intersect q x = false →
        joinStep pos edges froms tos intersect q st x = st)) := by
  refine ⟨?_, ?_, ?_⟩
  · rw [joinRun, joinFold_count, Nat.zero_add]
  · intro x
    exact joinValid_iff froms tos intersect q (decodeTuple pos edges q x)
  · intro st x
    constructor
    · intro hx
      have hx' : joinValid froms tos intersect q (decodeTuple pos edges q x) = true := hx
      simp only [joinStep, hx', if_true]
    · intro hx
      have hx' : joinValid froms tos intersect q (decodeTuple pos edges q x) = false := hx
      simp only [joinStep, hx', Bool.false_eq_true, if_false]

/-- Witness for C1: the two-query-edge instance `pos = [1, 2]`, candidate
array `edges = id`, `froms = id`, `tos = (· + 10)`, all rule codes zero;
tuple index 0 is accepted. -/
theorem join_acceptance_witness :
    (joinRun (fun i => i + 1) (fun e => e) (fun v => v) (fun v => v + 10)
        (fun _ => 0) 2 (fun _ => 99)).1
      = ((List.range (joinSize (fun i => i + 1) 2)).filter
          (joinAccepts (fun i => i + 1) (fun e => e) (fun v => v) (fun v => v + 10)
            (fun _ => 0) 2)).length ∧
    joinStep (fun i => i + 1) (fun e => e) (fun v => v) (fun v => v + 10)
        (fun _ => 0) 2 (0, fun _ => 99) 0
      = (1, joinEmit (fun _ => 99) 2 0
          (decodeTuple (fun i => i + 1) (fun e => e) 2 0)) :=
  ⟨(join_acceptance (fun i => i + 1) (fun e => e) (fun v => v) (fun v => v + 10)
      (fun _ => 0) 2 (fun _ => 99)).1,
    ((join_acceptance (fun i => i + 1) (fun e => e) (fun v => v) (fun v => v + 10)
      (fun _ => 0) 2 (fun _ => 99)).2.2 (0, fun _ => 99) 0).1 (by decide)⟩

/-- C5: in every tuple accepted by the Join kernel, the candidate data-edge
ids chosen for two distinct query-edge positions are distinct. -/
theorem join_match_pairwise_distinct (pos edges froms tos intersect : Nat → Nat)
    (q x j k : Nat) (hacc : joinAccepts pos edges froms tos intersect q x = true)
    (hj : j < q) (hk : k < q) (hne : j ≠ k) :
    (decodeTuple pos edges q x).getD j 0 ≠ (decodeTuple pos edges q x).getD k 0 := by
  have h := (joinValid_iff froms tos intersect q (decodeTuple pos edges q x)).1 hacc
  rcases Nat.lt_or_ge j k with hlt | hge
  · exact (h k (by omega) hk j hlt).1
  · have hlt : k < j := by omega
    exact Ne.symm (h j (by omega) hj k hlt).1

/-- Witness for C5 at the accepted two-query-edge tuple of index 0
(candidates 0 and 1). -/
theorem join_match_pairwise_distinct_witness :
    (decodeTuple (fun i => i + 1) (fun e => e) 2 0).getD 0 0
      ≠ (decodeTuple (fun i => i + 1) (fun e => e) 2 0).getD 1 0 :=
  join_match_pairwise_distinct (fun i => i + 1) (fun e => e) (fun v => v)
    (fun v => v + 10) (fun _ => 0) 2 0 0 1 (by decide) (by decide) (by decide) (by decide)

theorem joinRun_q1_fold (pos edges froms tos intersect : Nat → Nat) :
    ∀ (n c0 : Nat) (out : Nat → Nat),
      ((List.range n).foldl (joinStep pos edges froms tos intersect 1) (c0, out)).1
          = c0 + n ∧
      ∀ y, ((List.range n).foldl (joinStep pos edges froms tos intersect 1) (c0, out)).2 y
          = if c0 ≤ y ∧ y < c0 + n then edges (y - c0) else out y := by
  intro n
  induction n with
  | zero =>
    intro c0 out
    refine ⟨rfl, fun y => ?_⟩
    rw [if_neg (by omega)]
    rfl
  | succ n ih =>
    intro c0 out
    obtain ⟨h1, h2⟩ := ih c0 out
    have hstep : ∀ (st : Nat × (Nat → Nat)) (x : Nat),
        joinStep pos edges froms tos intersect 1 st x
          = (st.1 + 1, Function.update st.2 (st.1 * 1 + 0) (edges x)) := by
      intro st x
      rfl
    rw [List.range_succ, List.foldl_append, List.foldl_cons, List.foldl_nil, hstep]
    constructor
    · simp only [h1]
      omega
    · intro y
      simp only [Function.update_apply, h1, h2 y]
      split_ifs <;> try rfl
      all_goals (congr 1; omega)

/-- C6: for a single query edge (`edges_query = 1`) the Join kernel accepts
every tuple index, the final match count equals the candidate segment length
`pos[0]`, and under sequential execution `output[k] = edges[k]` for each
`k < pos[0]`. -/
theorem join_single_edge_query (pos edges froms tos intersect out0 : Nat → Nat) :
    (joinRun pos edges froms tos intersect 1 out0).1 = pos 0 ∧
    ∀ y, y < pos 0 → (joinRun pos edges froms tos intersect 1 out0).2 y = edges y := by
  have h := joinRun_q1_fold pos edges froms tos intersect (pos 0) 0 out0
  have hsz : joinSize pos 1 = pos 0 := rfl
  constructor
  · rw [joinRun, hsz, h.1, Nat.zero_add]
  · intro y hy
    rw [joinRun, hsz, h.2 y, if_pos (by omega), Nat.sub_zero]

/-- Witness for C6 with `pos[0] = 3` and identity candidate array:
match count 3 and `output[1] = edges[1]`. -/
theorem join_single_edge_query_witness :
    (joinRun (fun _ => 3) (fun e => e + 7) (fun v => v) (fun v => v + 10)
        (fun _ => 0) 1 (fun _ => 99)).1 = 3 ∧
    (joinRun (fun _ => 3) (fun e => e + 7) (fun v => v) (fun v => v + 10)
        (fun _ => 0) 1 (fun _ => 99)).2 1 = 8 :=
  ⟨(join_single_edge_query (fun _ => 3) (fun e => e + 7) (fun v => v)
      (fun v => v + 10) (fun _ => 0) (fun _ => 99)).1,
    (join_single_edge_query (fun _ => 3) (fun e => e + 7) (fun v => v)
      (fun v => v + 10) (fun _ => 0) (fun _ => 99)).2 1 (by decide)⟩

/-- The subscripts with which the Join kernel's decode loop accesses its
fixed local buffer `unsigned long long edge_id[3]`: `iter` runs from
`edges_query - 1` down to `1` (`edge_id[iter]` written then read), and
finally `edge_id[0]` is written. -/
def joinDecodeBufIdx (q : Nat) : List Nat :=
  (List.range' 1 (q - 1)).reverse ++ [0]

/-- The subscripts with which the Join kernel's validation nest reads the
local buffer: for `iter` in `[0, edges_query-1)` it reads `edge_id[iter+1]`
and `edge_id[edge]` for each `edge` in `[0, iter]`. -/
def joinValidateBufIdx (q : Nat) : List Nat :=
  (List.range (q - 1)).flatMap fun iter => (iter + 1) :: List.range (iter + 1)

/-- The subscripts with which the Join kernel's output loop reads the local
buffer: `edge_id[iter]` for `iter` in `[0, edges_query)`. -/
def joinOutputBufIdx (q : Nat) : List Nat :=
  List.range q

/-- All subscripts used on the local 3-entry buffer during one Join
iteration. -/
def joinBufIdx (q : Nat) : List Nat :=
  joinDecodeBufIdx q ++ joinValidateBufIdx q ++ joinOutputBufIdx q

/-- C7: with `1 ≤ edges_query ≤ 3` every access to the 3-entry local buffer
`edge_id` is in bounds, and for `edges_query > 3` the decode loop itself
subscripts the buffer at an index `≥ 3`, out of bounds. -/
theorem join_local_buffer_bounds (q : Nat) :
    (1 ≤ q → q ≤ 3 → ∀ i ∈ joinBufIdx q, i < 3) ∧
    (3 < q → ∃ i ∈ joinDecodeBufIdx q, 3 ≤ i) := by
  constructor
  · intro hq1 hq3 i hi
    have hlt : i < q := by
      rw [joinBufIdx, List.mem_append, List.mem_append] at hi
      rcases hi with (h | h) | h
      · rw [joinDecodeBufIdx, List.mem_append] at h
        rcases h with h | h
        · rw [List.mem_reverse, List.mem_range'_1] at h
          omega
        · simp at h
          omega
      · rw [joinValidateBufIdx] at h
        obtain ⟨iter, hiter, hmem⟩ := List.mem_flatMap.1 h
        rw [List.mem_range] at hiter
        rcases List.mem_cons.1 hmem with rfl | hmem2
        · omega
        · rw [List.mem_range] at hmem2
          omega
      · rw [joinOutputBufIdx, List.mem_range] at h
        omega
    omega
  · intro hq
    refine ⟨q - 1, ?_, by omega⟩
    rw [joinDecodeBufIdx, List.mem_append, List.mem_reverse]
    exact Or.inl (List.mem_range'_1.2 (by omega))

/-- Witness for C7 at `edges_query = 3` (all accesses in bounds) and
`edges_query = 4` (the decode loop goes out of bounds). -/
theorem join_local_buffer_bounds_witness :
    (∀ i ∈ joinBufIdx 3, i < 3) ∧ (∃ i ∈ joinDecodeBufIdx 4, 3 ≤ i) :=
  ⟨(join_local_buffer_bounds 3).1 (by decide) (by decide),
    (join_local_buffer_bounds 4).2 (by decide)⟩

/-- Boundary test of the Update kernel at position `x`:
`x == size-1 || indices[x]/edges_data < indices[x+1]/edges_data`, with `sz`
the latched value of `pos[0]` and entries read before any de-tagging at or
beyond `x` (sequential embedding). -/
def updBnd (E sz : Nat) (ind0 : Nat → Nat) (x : Nat) : Prop :=
  x = sz - 1 ∨ ind0 x / E < ind0 (x + 1) / E

/-- One iteration of the Update kernel at position `x` on the state
(candidate array, offset table): record `x+1` in `pos[indices[x]/edges_data]`
when the boundary test fires, then strip the tag
(`indices[x] %= edges_data`). -/
def updateStep (E sz : Nat) (st : (Nat → Nat) × (Nat → Nat)) (x : Nat) :
    (Nat → Nat) × (Nat → Nat) :=
  (Function.update st.1 x (st.1 x % E),
   if x = sz - 1 ∨ st.1 x / E < st.1 (x + 1) / E
   then Function.update st.2 (st.1 x / E) (x + 1)
   else st.2)

/-- Sequential run of the Update kernel: positions `0 .. pos[0]-1` in
ascending order, with the loop bound `pos[0]` latched before any write. -/
def updateRun (E : Nat) (ind0 p0 : Nat → Nat) : (Nat → Nat) × (Nat → Nat) :=
  (List.range (p0 0)).foldl (updateStep E (p0 0)) (ind0, p0)

theorem updateFold_spec (E sz : Nat) (ind0 p0 : Nat → Nat) :
    ∀ n, n ≤ sz →
      (∀ y, ((List.range n).foldl (updateStep E sz) (ind0, p0)).1 y
          = if y < n then ind0 y % E else ind0 y) ∧
      (∀ j,
        (∃ x, x < n ∧ ind0 x / E = j ∧ updBnd E sz ind0 x ∧
          ((List.range n).foldl (updateStep E sz) (ind0, p0)).2 j = x + 1) ∨
        ((∀ x, x < n → ¬(ind0 x / E = j ∧ updBnd E sz ind0 x)) ∧
          ((List.range n).foldl (updateStep E sz) (ind0, p0)).2 j = p0 j)) := by
  intro n
  induction n with
  | zero =>
    intro _
    refine ⟨fun y => by simp, fun j => Or.inr ⟨fun x hx => absurd hx (Nat.not_lt_zero x), rfl⟩⟩
  | succ n ih =>
    intro hn
    obtain ⟨h1, h2⟩ := ih (by omega)
    rw [List.range_succ, List.foldl_append, List.foldl_cons, List.foldl_nil]
    set st := (List.range n).foldl (updateStep E sz) (ind0, p0) with hst
    have e1 : st.1 n = ind0 n := by rw [h1 n, if_neg (by omega)]
    have e2 : st.1 (n + 1) = ind0 (n + 1) := by rw [h1 (n + 1), if_neg (by omega)]
    have step1 : (updateStep E sz st n).1 = Function.update st.1 n (st.1 n % E) := rfl
    have step2 : (updateStep E sz st n).2
        = if n = sz - 1 ∨ st.1 n / E < st.1 (n + 1) / E
          then Function.update st.2 (st.1 n / E) (n + 1) else st.2 := rfl
    constructor
    · intro y
      rw [step1, Function.update_apply]
      by_cases hy : y = n
      · subst hy
        rw [if_pos rfl, e1, if_pos (by omega)]
      · rw [if_neg hy, h1 y]
        by_cases hy2 : y < n
        · rw [if_pos hy2, if_pos (by omega)]
        · rw [if_neg hy2, if_neg (by omega)]
    · intro j
      rw [step2]
      by_cases hb : updBnd E sz ind0 n
      · have hcond : n = sz - 1 ∨ st.1 n / E < st.1 (n + 1) / E := by
          rw [e1, e2]
          exact hb
        rw [if_pos hcond]
        by_cases hj : ind0 n / E = j
        · left
          refine ⟨n, by omega, hj, hb, ?_⟩
          rw [e1, hj, Function.update_same]
        · have hne : j ≠ st.1 n / E := by
            rw [e1]
            exact fun h => hj h.symm
          rw [Function.update_noteq hne]
          rcases h2 j with ⟨x, hx, hxj, hxb, hps⟩ | ⟨hnone, hps⟩
          · exact Or.inl ⟨x, by omega, hxj, hxb, hps⟩
          · refine Or.inr ⟨fun x hx => ?_, hps⟩
            rcases Nat.lt_or_ge x n with hlt | hge
            · exact hnone x hlt
            · have hxn : x = n := by omega
              subst hxn
              rintro ⟨hc1, _⟩
              exact hj hc1
      · have hcond : ¬(n = sz - 1 ∨ st.1 n / E < st.1 (n + 1) / E) := by
          rw [e1, e2]
          exact hb
        rw [if_neg hcond]
        rcases h2 j with ⟨x, hx, hxj, hxb, hps⟩ | ⟨hnone, hps⟩
        · exact Or.inl ⟨x, by omega, hxj, hxb, hps⟩
        · refine Or.inr ⟨fun x hx => ?_, hps⟩
          rcases Nat.lt_or_ge x n with hlt | hge
          · exact hnone x hlt
          · have hxn : x = n := by omega
            subst hxn
            rintro ⟨_, hc2⟩
            exact hb hc2

theorem updateRun_pos_char (E : Nat) (ind0 p0 : Nat → Nat) (q : Nat)
    (hsorted : ∀ y, y < p0 0 → ∀ x, x ≤ y → ind0 x / E ≤ ind0 y / E)
    (hcover : ∀ i, i < q → ∃ x, x < p0 0 ∧ ind0 x / E = i)
    (i : Nat) (hi : i < q) :
    ∃ x0, x0 < p0 0 ∧ ind0 x0 / E = i ∧ (updateRun E ind0 p0).2 i = x0 + 1 ∧
      ∀ y, y < p0 0 → (y ≤ x0 ↔ ind0 y / E ≤ i) := by
  obtain ⟨h1, h2⟩ := updateFold_spec E (p0 0) ind0 p0 (p0 0) le_rfl
  rcases h2 i with ⟨x0, hx0, hxi, hxb, hps⟩ | ⟨hnone, hps⟩
  · refine ⟨x0, hx0, hxi, hps, fun y hy => ?_⟩
    constructor
    · intro hyx
      calc ind0 y / E ≤ ind0 x0 / E := hsorted x0 hx0 y hyx
        _ = i := hxi
    · intro hty
      by_contra hgt
      push_neg at hgt
      have hx0sz : x0 ≠ p0 0 - 1 := by omega
      have hstrict : ind0 x0 / E < ind0 (x0 + 1) / E := by
        rcases hxb with h | h
        · exact absurd h hx0sz
        · exact h
      have hle : ind0 (x0 + 1) / E ≤ ind0 y / E := hsorted y hy (x0 + 1) (by omega)
      omega
  · exfalso
    obtain ⟨x, hx, hxi⟩ := hcover i hi
    have hP : x < p0 0 ∧ ind0 x / E = i := ⟨hx, hxi⟩
    have hspec := Nat.findGreatest_spec (P := fun z => z < p0 0 ∧ ind0 z / E = i)
      (Nat.le_of_lt hx) hP
    set x0 := Nat.findGreatest (fun z => z < p0 0 ∧ ind0 z / E = i) (p0 0) with hx0def
    have hbnd : updBnd E (p0 0) ind0 x0 := by
      by_cases hlast : x0 = p0 0 - 1
      · exact Or.inl hlast
      · have hsucc : x0 + 1 < p0 0 := by
          have := hspec.1
          omega
        have hle : ind0 x0 / E ≤ ind0 (x0 + 1) / E :=
          hsorted (x0 + 1) hsucc x0 (Nat.le_succ x0)
        rcases Nat.lt_or_ge (ind0 x0 / E) (ind0 (x0 + 1) / E) with hlt | hge
        · exact Or.inr hlt
        · exfalso
          have heq : ind0 (x0 + 1) / E = i := by
            have := hspec.2
            omega
          have : x0 + 1 ≤ x0 :=
            Nat.le_findGreatest (Nat.le_of_lt hsucc) ⟨hsucc, heq⟩
          omega
    exact hnone x0 hspec.1 ⟨hspec.2, hbnd⟩

/-- C3: after the sequential Update kernel runs on a candidate array sorted
by encoded query-edge index (with `pos[0]` holding the array length and
every query edge owning at least one candidate), `pos[i]` is the exclusive
upper bound of query edge `i`'s contiguous run, every entry of segment `i`
is its original value modulo `edges_data` and originally carried tag `i`,
and the offset table is monotonically non-decreasing. -/
theorem update_segment_compaction (E : Nat) (ind0 p0 : Nat → Nat) (q : Nat)
    (hsorted : ∀ y, y < p0 0 → ∀ x, x ≤ y → ind0 x / E ≤ ind0 y / E)
    (hcover : ∀ i, i < q → ∃ x, x < p0 0 ∧ ind0 x / E = i) :
    (∀ i, i < q → ∀ x, x < p0 0 →
      (x < (updateRun E ind0 p0).2 i ↔ ind0 x / E ≤ i)) ∧
    (∀ i, i < q → ∀ x,
      (if i = 0 then 0 else (updateRun E ind0 p0).2 (i - 1)) ≤ x →
      x < (updateRun E ind0 p0).2 i →
      ((updateRun E ind0 p0).1 x = ind0 x % E ∧ ind0 x / E = i)) ∧
    (∀ i j, i ≤ j → j < q → (updateRun E ind0 p0).2 i ≤ (updateRun E ind0 p0).2 j) := by
  have hchar := updateRun_pos_char E ind0 p0 q hsorted hcover
  have hind : ∀ y, (updateRun E ind0 p0).1 y = if y < p0 0 then ind0 y % E else ind0 y :=
    (updateFold_spec E (p0 0) ind0 p0 (p0 0) le_rfl).1
  refine ⟨?_, ?_, ?_⟩
  · intro i hi x hx
    obtain ⟨x0, hx0, hxi, hps, hiff⟩ := hchar i hi
    rw [hps]
    constructor
    · intro hlt
      exact (hiff x hx).1 (by omega)
    · intro hle
      have := (hiff x hx).2 hle
      omega
  · intro i hi x hlow hhigh
    obtain ⟨x0, hx0, hxi, hps, hiff⟩ := hchar i hi
    rw [hps] at hhigh
    have hxsz : x < p0 0 := by omega
    have htle : ind0 x / E ≤ i := (hiff x hxsz).1 (by omega)
    have htag : ind0 x / E = i := by
      by_cases hz : i = 0
      · rw [hz] at htle ⊢
        exact Nat.le_zero.1 htle
      · rw [if_neg hz] at hlow
        obtain ⟨x1, hx1, hx1i, hps1, hiff1⟩ := hchar (i - 1) (by omega)
        rw [hps1] at hlow
        have hxx1 : ¬(x ≤ x1) := by omega
        have h5 : ¬(ind0 x / E ≤ i - 1) := fun hc => hxx1 ((hiff1 x hxsz).2 hc)
        exact Nat.le_antisymm htle (Nat.le_of_pred_lt (Nat.lt_of_not_le h5))
    refine ⟨?_, htag⟩
    rw [hind x, if_pos hxsz]
  · intro i j hij hj
    obtain ⟨x0, hx0, hxi, hps, hiff⟩ := hchar i (by omega)
    obtain ⟨x1, hx1, hx1i, hps1, hiff1⟩ := hchar j hj
    rw [hps, hps1]
    have : x0 ≤ x1 := (hiff1 x0 hx0).2 (by omega)
    omega

/-- Witness for C3: tagged array `[3, 17, 12]` (`edges_data = 10`, tags
`0, 1, 1`), `pos = [3, ...]`; after Update the tag-0 segment is `[0, 1)` and
the tag-1 segment is `[1, 3)`. -/
theorem update_segment_compaction_witness :
    (1 < (updateRun 10 (fun x => if x = 0 then 3 else if x = 1 then 17 else 12)
        (fun j => if j = 0 then 3 else 99)).2 1 ↔
      (if (1 : Nat) = 0 then 3 else if (1 : Nat) = 1 then 17 else 12) / 10 ≤ 1) :=
  (update_segment_compaction 10
      (fun x => if x = 0 then 3 else if x = 1 then 17 else 12)
      (fun j => if j = 0 then 3 else 99) 2
      (by decide) (by decide)).1 1 (by decide) 1 (by decide)

/-- The Label kernel, embedded sequentially.  Its loop bound is taken from
the query graph's first row offset (`SizeT size = d_query_row[0];`): the
loop runs for `x < d_query_row[0]`, and for each query edge `i` it sets
`label[x + i*edges_data/2] = 1` when the candidacy bitmask has bit
`froms_query[i]` set for node `froms_data[x]` and bit `tos_query[i]` set for
node `tos_data[x]`. -/
def labelRun (froms_data tos_data froms_query tos_query c_set : Nat → Nat)
    (d_query_row : Nat → Nat) (edges_data q : Nat) (label0 : Nat → Nat) : Nat → Nat :=
  (List.range (d_query_row 0)).foldl
    (fun lab x =>
      (List.range q).foldl
        (fun l i =>
          if (c_set (froms_data x) >>> froms_query i) % 2 = 1 ∧
             (c_set (tos_data x) >>> tos_query i) % 2 = 1
          then Function.update l (x + i * edges_data / 2) 1
          else l) lab)
    label0

/-- C4 (code evaluation at the failing input): with the conventional CSR
value `d_query_row[0] = 0`, the Label kernel performs no iterations and
marks nothing — here `edges_data = 2`, one query edge, and the bitmask
admits every node (`c_set = 1`, query nodes 0), so data edge 0 qualifies
(`(c_set[froms_data[0]] >> 0) % 2 = 1` and likewise for the destination),
yet `label[0]` stays 0.  The claim's loop domain (all `x < edges_data`)
would have marked it. -/
theorem label_zero_domain_marks_nothing :
    labelRun (fun _ => 0) (fun _ => 1) (fun _ => 0) (fun _ => 0) (fun _ => 1)
        (fun _ => 0) 2 1 (fun _ => 0) 0 = 0 ∧
    ((fun _ => 1 : Nat → Nat) ((fun _ => 0 : Nat → Nat) 0) >>>
        ((fun _ => 0 : Nat → Nat) 0)) % 2 = 1 := by
  constructor
  · rfl
  · rfl

/-- The general fact behind C4's divergence: whenever the first query row
offset is zero — as it is for every CSR row-offset array — the Label kernel
leaves the label array untouched, regardless of the data graph. -/
theorem label_empty_when_first_offset_zero
    (froms_data tos_data froms_query tos_query c_set d_query_row : Nat → Nat)
    (edges_data q : Nat) (label0 : Nat → Nat) (h : d_query_row 0 = 0) :
    labelRun froms_data tos_data froms_query tos_query c_set d_query_row
      edges_data q label0 = label0 := by
  rw [labelRun, h]
  rfl

/-- Witness for `label_empty_when_first_offset_zero` at a concrete instance. -/
theorem label_empty_when_first_offset_zero_witness :
    labelRun (fun _ => 0) (fun _ => 1) (fun _ => 0) (fun _ => 0) (fun _ => 1)
        (fun _ => 0) 2 1 (fun v => v + 5) = (fun v => v + 5) :=
  label_empty_when_first_offset_zero (fun _ => 0) (fun _ => 1) (fun _ => 0)
    (fun _ => 0) (fun _ => 1) (fun _ => 0) 2 1 (fun v => v + 5) (by decide)

/-- The value assigned to `vertex_cover_size` by `SMProblem::Init`
(`sizeof(h_vertex_cover)/sizeof(h_vertex_cover[0])` at sm_problem.cuh:253),
as a function of the platform's pointer size in bytes, the `VertexId`
element size in bytes, and the true length of the caller's vertex-cover
set: because `h_vertex_cover` is a pointer parameter, `sizeof` yields the
pointer size, not the array's byte length, so the true length is ignored. -/
def vertexCoverSizeInit (ptrBytes elemBytes : Nat) (_trueLen : Nat) : Nat :=
  ptrBytes / elemBytes

/-- Counterexample to C8 as stated: on a 64-bit platform (8-byte pointers)
with 4-byte `VertexId`, the computed value is 2, not 1, whatever the true
vertex-cover length (here 100). -/
theorem vertex_cover_size_not_one :
    vertexCoverSizeInit 8 4 100 = 2 ∧ vertexCoverSizeInit 8 4 100 ≠ 1 := by
  constructor
  · rfl
  · decide

/-- C8 (amended): the assigned `vertex_cover_size` is a compile-time
constant — the pointer size divided by the `VertexId` size — independent of
the true length of the vertex-cover set; it equals 1 exactly when
`VertexId` has pointer width. -/
theorem vertex_cover_size_constant (ptrBytes elemBytes n m : Nat) :
    vertexCoverSizeInit ptrBytes elemBytes n = vertexCoverSizeInit ptrBytes elemBytes m ∧
    vertexCoverSizeInit ptrBytes elemBytes n = ptrBytes / elemBytes := ⟨rfl, rfl⟩

/-- The operations of `SMProblem::Init`'s single-GPU path, in program order.
`true` marks a fallible step — one whose CUDA status is tested by an
`if (retval = ...) return retval` (or `break`, for `cudaGetDevice`) guard —
`false` an unguarded step (the two `DataSlice::Init` calls whose return
value is discarded, kernel launches, and the trailing field assignments). -/
def smInitSteps : List (String × Bool) :=
  [("cudaGetDevice", true),
   ("cudaMalloc d_data_slices", true),
   ("DataSlice Init graph_query", false),
   ("DataSlice Init graph_data", false),
   ("labels.Allocate", true),
   ("d_query_labels.Allocate", true),
   ("d_data_labels.Allocate", true),
   ("d_query_nodeIDs.Allocate", true),
   ("d_query_edgeIDs.Allocate", true),
   ("d_query_row.Allocate", true),
   ("d_query_col.Allocate", true),
   ("d_edge_weights.Allocate", true),
   ("d_c_set.Allocate", true),
   ("d_query_degrees.Allocate", true),
   ("d_data_degrees.Allocate", true),
   ("d_temp_keys.Allocate", true),
   ("d_vertex_cover.Allocate", true),
   ("MemsetKernel labels", false),
   ("d_query_labels.Move", true),
   ("d_data_labels.Move", true),
   ("d_vertex_cover.Move", true),
   ("MemsetIdxKernel d_query_nodeIDs", false),
   ("MemsetIdxKernel d_query_edgeIDs", false),
   ("d_query_row.Move", true),
   ("d_query_col.Move", true),
   ("MemsetKernel d_edge_weights", false),
   ("MemsetKernel d_c_set", false),
   ("MemsetKernel d_temp_keys", false),
   ("d_query_degrees.Move", true),
   ("d_data_degrees.Move", true),
   ("assign slice nodes_data", false),
   ("assign slice nodes_query", false),
   ("assign slice edges_data", false),
   ("assign slice edges_query", false),
   ("assign slice vertex_cover_size", false)]

/-- Run a guarded sequence of steps: `outcome op = some e` means the CUDA
call `op` fails with status `e` (nonzero), `none` that it succeeds.  A
failing fallible step returns its status at once; the result is the
returned status (`0` = `cudaSuccess`) paired with the operations actually
performed. -/
def runInitSeq (outcome : String → Option Nat) : List (String × Bool) → Nat × List String
  | [] => (0, [])
  | (op, fallible) :: rest =>
    if fallible then
      match outcome op with
      | some e => (e, [op])
      | none =>
        let r := runInitSeq outcome rest
        (r.1, op :: r.2)
    else
      let r := runInitSeq outcome rest
      (r.1, op :: r.2)

/-- The guarded control flow of `SMProblem::Init` over its operation
sequence. -/
def smInitRun (outcome : String → Option Nat) : Nat × List String :=
  runInitSeq outcome smInitSteps

theorem runInitSeq_all_ok (outcome : String → Option Nat) :
    ∀ l : List (String × Bool),
      (∀ s ∈ l, s.2 = true → outcome s.1 = none) →
      runInitSeq outcome l = (0, l.map Prod.fst) := by
  intro l
  induction l with
  | nil => intro _; rfl
  | cons s rest ih =>
    intro h
    obtain ⟨op, fb⟩ := s
    by_cases hf : fb = true
    · subst hf
      have hs : outcome op = none := h (op, true) (List.mem_cons_self _ _) rfl
      simp [runInitSeq, hs, ih fun t ht hb => h t (List.mem_cons_of_mem _ ht) hb]
    · have hfb : fb = false := by
        cases fb
        · rfl
        · exact absurd rfl hf
      subst hfb
      simp [runInitSeq, ih fun t ht hb => h t (List.mem_cons_of_mem _ ht) hb]

theorem runInitSeq_first_fail (outcome : String → Option Nat) :
    ∀ (pre : List (String × Bool)) (op : String) (post : List (String × Bool)) (e : Nat),
      (∀ s ∈ pre, s.2 = true → outcome s.1 = none) →
      outcome op = some e →
      runInitSeq outcome (pre ++ (op, true) :: post) = (e, pre.map Prod.fst ++ [op]) := by
  intro pre
  induction pre with
  | nil =>
    intro op post e _ hop
    simp [runInitSeq, hop]
  | cons s rest ih =>
    intro op post e hpre hop
    obtain ⟨p, fb⟩ := s
    have hrest := ih op post e (fun t ht hb => hpre t (List.mem_cons_of_mem _ ht) hb) hop
    by_cases hf : fb = true
    · subst hf
      have hs : outcome p = none := hpre (p, true) (List.mem_cons_self _ _) rfl
      simp [runInitSeq, hs, hrest]
    · have hfb : fb = false := by
        cases fb
        · rfl
        · exact absurd rfl hf
      subst hfb
      simp [runInitSeq, hrest]

/-- C9: if every fallible operation of `SMProblem::Init` succeeds, Init
returns the success status having performed every step in sequence; if some
device allocation or transfer fails (all earlier fallible steps
succeeding), Init returns that operation's failure status immediately and
performs none of the subsequent steps — the performed operations are
exactly the preceding ones plus the failing call. -/
theorem sm_init_fail_fast (outcome : String → Option Nat) :
    ((∀ s ∈ smInitSteps, s.2 = true → outcome s.1 = none) →
      smInitRun outcome = (0, smInitSteps.map Prod.fst)) ∧
    (∀ (pre : List (String × Bool)) (op : String) (post : List (String × Bool)) (e : Nat),
      smInitSteps = pre ++ (op, true) :: post →
      (∀ s ∈ pre, s.2 = true → outcome s.1 = none) →
      outcome op = some e →
      smInitRun outcome = (e, pre.map Prod.fst ++ [op])) := by
  constructor
  · intro h
    exact runInitSeq_all_ok outcome smInitSteps h
  · intro pre op post e hsplit hpre hop
    rw [smInitRun, hsplit]
    exact runInitSeq_first_fail outcome pre op post e hpre hop

/-- Witness for C9: `d_c_set.Allocate` fails with status 2 (out of memory)
while every earlier call succeeds; Init returns 2 having performed exactly
the first twelve operations and the failing allocation. -/
theorem sm_init_fail_fast_witness :
    smInitRun (fun op => if op = "d_c_set.Allocate" then some 2 else none)
      = (2, (smInitSteps.take 12).map Prod.fst ++ ["d_c_set.Allocate"]) :=
  (sm_init_fail_fast (fun op => if op = "d_c_set.Allocate" then some 2 else none)).2
    (smInitSteps.take 12) "d_c_set.Allocate" (smInitSteps.drop 13) 2
    (by decide) (by decide) (by decide)

/-- The state touched by `SMProblem::Extract`: the host-side `num_matches`
counter, the device-resident candidate-set bitmask, and the caller's host
buffer. -/
structure ExtractState where
  num_matches : Nat
  d_c_set : Nat → Bool
  h_c_set : Nat → Bool

/-- The body of `SMProblem::Extract`: when `num_gpus == 1` it sets the device
(`setDev`), repoints the array at the caller's buffer and moves
DEVICE → HOST (`move`), returning any failure status unchanged, and then
resets `num_matches` to 0; when `num_gpus != 1` the else-branch is empty
and the initial `retval = cudaSuccess` is returned with nothing copied. -/
def smExtract (numGpus : Nat) (setDev move : Option Nat) (st : ExtractState) :
    Nat × ExtractState :=
  if numGpus = 1 then
    match setDev with
    | some e => (e, st)
    | none =>
      match move with
      | some e => (e, st)
      | none =>
        (0, { num_matches := 0, d_c_set := st.d_c_set, h_c_set := st.d_c_set })
  else (0, st)

/-- C10: with a single GPU and successful CUDA calls, Extract copies the
device candidate-set bitmask into the caller's host buffer, resets
`num_matches` to 0 (losing the recorded match count) and returns success;
with `num_gpus ≠ 1` it copies nothing, modifies no state, and still returns
the success status. -/
theorem sm_extract_effects (numGpus : Nat) (setDev move : Option Nat) (st : ExtractState) :
    (numGpus = 1 → setDev = none → move = none →
      smExtract numGpus setDev move st
        = (0, { num_matches := 0, d_c_set := st.d_c_set, h_c_set := st.d_c_set })) ∧
    (numGpus ≠ 1 → smExtract numGpus setDev move st = (0, st)) := by
  constructor
  · intro h1 h2 h3
    subst h1
    subst h2
    subst h3
    simp [smExtract]
  · intro h1
    simp [smExtract, h1]

/-- Witness for C10: both branches at concrete states. -/
theorem sm_extract_effects_witness :
    smExtract 1 none none ⟨5, fun v => v = 0, fun _ => false⟩
        = (0, ⟨0, fun v => v = 0, fun v => v = 0⟩) ∧
    smExtract 2 none none ⟨5, fun v => v = 0, fun _ => false⟩
        = (0, ⟨5, fun v => v = 0, fun _ => false⟩) :=
  ⟨(sm_extract_effects 1 none none ⟨5, fun v => v = 0, fun _ => false⟩).1 rfl rfl rfl,
    (sm_extract_effects 2 none none ⟨5, fun v => v = 0, fun _ => false⟩).2 (by decide)⟩

end Gunrock
